import Mathlib

/-!
Shallow embedding of the real-time pitch and spectral analysis engine of
`src/demod.ts` (DEMOD terminal chromatic tuner), together with proofs of the
specified properties.

The embedding follows the source line by line:

* the frame assembler is the byte-buffer loop of `startCapture`
  (lines 655-668): bytes accumulate, and while at least `NFFT * 2` bytes are
  buffered one frame of `NFFT` little-endian signed 16-bit samples is sliced
  off and scaled by `1 / 32768`;
* `detectPitch` (lines 719-748) is the autocorrelation pitch estimator with
  silence gate, best-lag search and parabolic refinement;
* `calcBands` (lines 704-717) is the log-spaced pseudo-spectrum estimator;
* the level meter and the tracker are the per-frame state updates of
  `startCapture` (lines 670-696);
* `saveA4` (lines 86-93) is the validated reference-pitch setter.

Floating point numbers are idealized as real numbers; the assembler, which is
exact integer code, is modelled over `ℚ` and `ℕ` and is fully executable.
-/

namespace Demod

/-- Frame size in samples: the constant `NFFT = 1024` of the source. -/
def NFFT : ℕ := 1024

/-- Bytes per assembled frame: `chunkSize = NFFT * 2` in `startCapture`. -/
def chunkSize : ℕ := 2048

/-- Little-endian signed 16-bit read, as `slice.readInt16LE` does: the two
bytes form the unsigned value `b0 + 256 * b1`, reinterpreted in two's
complement. -/
def int16LE (b0 b1 : ℕ) : ℤ :=
  if b0 + 256 * b1 < 32768 then (b0 + 256 * b1 : ℤ) else (b0 + 256 * b1 : ℤ) - 65536

/-- Conversion of one `chunkSize`-byte slice into a frame of `NFFT` samples,
each 16-bit little-endian integer divided by 32768, as in the sample loop of
`startCapture`. -/
def toFrame (bytes : List ℕ) : List ℚ :=
  (List.range NFFT).map fun i =>
    (int16LE (bytes.getD (2 * i) 0) (bytes.getD (2 * i + 1) 0) : ℚ) / 32768

/-- The frame-slicing `while` loop of `startCapture`: while at least
`chunkSize` bytes are buffered, slice one frame off the front; the leftover
partial bytes are the new pending buffer. -/
def emitFrames (bytes : List ℕ) : List (List ℚ) × List ℕ :=
  if h : chunkSize ≤ bytes.length then
    let r := emitFrames (bytes.drop chunkSize)
    (toFrame (bytes.take chunkSize) :: r.1, r.2)
  else ([], bytes)
termination_by bytes.length
decreasing_by simp only [List.length_drop]; simp only [chunkSize] at h ⊢; omega

/-- One `push` of a byte chunk: append to the pending buffer, then run the
frame-slicing loop. -/
def pushChunk (buf chunk : List ℕ) : List (List ℚ) × List ℕ :=
  emitFrames (buf ++ chunk)

/-- One iteration of feeding the assembler: push the next chunk against the
current pending buffer and accumulate the emitted frames. -/
def pushStep (acc : List (List ℚ) × List ℕ) (c : List ℕ) : List (List ℚ) × List ℕ :=
  let p := pushChunk acc.2 c
  (acc.1 ++ p.1, p.2)

/-- Feeding a sequence of byte chunks through the assembler starting from an
empty pending buffer, accumulating all emitted frames in order. -/
def runChunks (chunks : List (List ℕ)) : List (List ℚ) × List ℕ :=
  chunks.foldl pushStep ([], [])

/-- Validated reference-pitch setter `saveA4`: values outside `[415, 465]` are
rejected and the stored reference pitch is unchanged; in-range values are
stored. -/
def saveA4 (current val : ℚ) : ℚ :=
  if val < 415 ∨ 465 < val then current else val

noncomputable section

/-- Silence threshold `SILENCE = 0.007` of the source. -/
def SILENCE : ℝ := 7 / 1000

/-- Unbiased autocorrelation at a lag, the sum
`Σ buf[i] * buf[i + lag] / (n - lag)` computed by both `detectPitch` and its
inner closure `ac`. -/
def acSum (buf : List ℝ) (lag : ℕ) : ℝ :=
  (∑ i in Finset.range (buf.length - lag), buf.getD i 0 * buf.getD (i + lag) 0) /
    ((buf.length : ℝ) - (lag : ℝ))

/-- Root-mean-square amplitude of a frame, `sqrt(Σ buf[i]^2 / n)` as computed
at the top of `detectPitch`. -/
def rmsOf (buf : List ℝ) : ℝ :=
  Real.sqrt ((∑ i in Finset.range buf.length, buf.getD i 0 * buf.getD i 0) / (buf.length : ℝ))

/-- Lower lag bound of the pitch search, `Math.floor(sampleRate / 1600)`. -/
def minLag (sampleRate : ℝ) : ℕ := (⌊sampleRate / 1600⌋).toNat

/-- Upper lag bound of the pitch search, `Math.floor(sampleRate / 40)`. -/
def maxLag (sampleRate : ℝ) : ℕ := (⌊sampleRate / 40⌋).toNat

/-- One iteration of the best-lag search loop of `detectPitch`. The accumulator
is `none` while no lag has been examined, mirroring the sentinel
`bestV = -Infinity` (any finite correlation beats it). -/
def bestStep (buf : List ℝ) (acc : Option (ℕ × ℝ)) (lag : ℕ) : Option (ℕ × ℝ) :=
  match acc with
  | none => some (lag, acSum buf lag)
  | some (b, bv) => if bv < acSum buf lag then some (lag, acSum buf lag) else some (b, bv)

/-- The best-lag search loop of `detectPitch` over `lag = minL, ..., maxL`.
Returns `none` exactly when the loop body never ran (`best` stays `-1`). -/
def bestSearch (buf : List ℝ) (minL maxL : ℕ) : Option (ℕ × ℝ) :=
  (List.range' minL (maxL + 1 - minL)).foldl (bestStep buf) none

/-- The pitch estimator `detectPitch`: silence gate on RMS, best-lag
autocorrelation search, weak-peak gate, and parabolic refinement guarded by
the range check and the `1e-9` denominator bound. -/
def detectPitch (buf : List ℝ) (sampleRate : ℝ) : Option ℝ :=
  if rmsOf buf < SILENCE then none
  else
    match bestSearch buf (minLag sampleRate) (maxLag sampleRate) with
    | none => none
    | some (best, bestV) =>
      if bestV < SILENCE * (5 / 100) then none
      else if minLag sampleRate < best ∧ best < maxLag sampleRate then
        let y0 := acSum buf (best - 1)
        let y1 := acSum buf best
        let y2 := acSum buf (best + 1)
        let d := 2 * (2 * y1 - y0 - y2)
        if 1 / 1000000000 < |d| then some (sampleRate / ((best : ℝ) + (y0 - y2) / d))
        else some (sampleRate / (best : ℝ))
      else some (sampleRate / (best : ℝ))

/-- Target frequency of band `i` in `calcBands`:
`f = lo * (hi / lo) ^ (i / (count - 1))` with `lo = 80`, `hi = 5000`. -/
def bandFreq (count : ℕ) (i : ℕ) : ℝ :=
  80 * ((5000 / 80 : ℝ) ^ ((i : ℝ) / ((count : ℝ) - 1)))

/-- Raw (pre-normalization) energy of one band in `calcBands`: the lag is
`Math.round(sampleRate / f)`; out-of-range lags give energy `0`, otherwise the
unbiased autocorrelation at that lag. -/
def rawBand (buf : List ℝ) (sampleRate : ℝ) (f : ℝ) : ℝ :=
  let lag := round (sampleRate / f)
  if lag < 2 ∨ (buf.length : ℤ) ≤ lag then 0
  else
    (∑ j in Finset.range (buf.length - lag.toNat),
        buf.getD j 0 * buf.getD (j + lag.toNat) 0) /
      ((buf.length : ℝ) - (lag.toNat : ℝ))

/-- The vector of raw band energies computed by the loop of `calcBands`. -/
def rawBands (buf : List ℝ) (count : ℕ) (sampleRate : ℝ) : List ℝ :=
  (List.range count).map fun i => rawBand buf sampleRate (bandFreq count i)

/-- The band energy estimator `calcBands`: raw energies normalized by
`mx = Math.max(...res, 1e-8)` and clamped from above by
`Math.min(1, v / mx)`. -/
def calcBands (buf : List ℝ) (count : ℕ) (sampleRate : ℝ) : List ℝ :=
  let res := rawBands buf count sampleRate
  let mx := res.foldr max (1 / 100000000)
  res.map fun v => min 1 (v / mx)

/-- The VU display gain `VU_GAIN = 6` of `startCapture`. -/
def VU_GAIN : ℝ := 6

/-- Instantaneous scaled level of a frame:
`vuScaled = Math.min(1, rms * VU_GAIN)` where `rms` sums `NFFT` squared
samples, as in the frame loop of `startCapture`. -/
def vuScaledOf (frame : List ℝ) : ℝ :=
  min 1 (Real.sqrt ((∑ i in Finset.range NFFT, frame.getD i 0 * frame.getD i 0) / (NFFT : ℝ)) * VU_GAIN)

/-- Level-meter state: envelope level `vu`, held peak `vuPeak` and the
peak-hold countdown `vuPeakTimer` of the app state. -/
structure Meter where
  vu : ℝ
  vuPeak : ℝ
  vuPeakTimer : ℤ

/-- Initial level-meter state from the `state` literal:
`vu = 0`, `vuPeak = 0`, `vuPeakTimer = 0`. -/
def meterInit : Meter := ⟨0, 0, 0⟩

/-- One level-meter update from `startCapture`:
`state.vu = vuScaled > state.vu ? vuScaled : state.vu * 0.92`, then either a
new peak (`vuPeak = vu`, timer reset to 45) or a pre-decremented timer with
peak decay `* 0.97` once the timer is exhausted. -/
def meterStep (m : Meter) (vuScaled : ℝ) : Meter :=
  let vu := if m.vu < vuScaled then vuScaled else m.vu * (92 / 100)
  if m.vuPeak < vu then ⟨vu, vu, 45⟩
  else ⟨vu, if m.vuPeakTimer - 1 ≤ 0 then m.vuPeak * (97 / 100) else m.vuPeak, m.vuPeakTimer - 1⟩

/-- Level-meter update driven by a frame, combining the RMS scaling and the
envelope and peak logic. -/
def meterFrame (m : Meter) (frame : List ℝ) : Meter :=
  meterStep m (vuScaledOf frame)

/-- Frequency to continuous musical pitch,
`f2m(f) = 69 + 12 * log2(f / REFERENCE_FREQ)`. -/
def f2m (ref f : ℝ) : ℝ := 69 + 12 * Real.logb 2 (f / ref)

/-- Musical pitch to frequency, `m2f(m) = REFERENCE_FREQ * 2 ^ ((m - 69) / 12)`. -/
def m2f (ref m : ℝ) : ℝ := ref * (2 : ℝ) ^ ((m - 69) / 12)

/-- Cents deviation extracted by `parseNote`: `(m - Math.round(m)) * 100`. -/
def parseNoteCents (m : ℝ) : ℝ := (m - (round m : ℤ)) * 100

/-- Pitch-tracker state: smoothed pitch `smoothMidi`, displayed frequency
`freq`, cents history and the consecutive-silence counter `lostFrames`. -/
structure Tracker where
  smoothMidi : Option ℝ
  freq : Option ℝ
  history : List ℝ
  lostFrames : ℕ

/-- The cents-history cap of `startCapture`:
`if (state.history.length > 200) state.history.shift()`. -/
def histCap (h : List ℝ) : List ℝ :=
  if 200 < h.length then h.drop 1 else h

/-- One pitch-tracker update from the frame loop of `startCapture`. A
candidate inside `(25, 2500)` is adopted or blended with weight `0.32` and
resets the silence counter; otherwise the counter is incremented, a neutral
`0` is appended to the history, and the smoothed pitch is cleared only once
the counter exceeds `5`. -/
def trackerStep (ref : ℝ) (t : Tracker) (f : Option ℝ) : Tracker :=
  let voiced : ℝ → Tracker := fun v =>
    let m := f2m ref v
    let sm := match t.smoothMidi with
      | none => m
      | some s => 32 / 100 * m + 68 / 100 * s
    ⟨some sm, some (m2f ref sm), histCap (t.history ++ [parseNoteCents sm]), 0⟩
  let silent : Tracker :=
    let lf := t.lostFrames + 1
    ⟨if 5 < lf then none else t.smoothMidi,
     if 5 < lf then none else t.freq,
     histCap (t.history ++ [0]), lf⟩
  match f with
  | some v => if 25 < v ∧ v < 2500 then voiced v else silent
  | none => silent

/-- The mutable analysis state of the app that a capture session reads and
writes: tracker fields, level-meter fields, history buffers, and the pending
byte buffer of the frame assembler. -/
structure PipelineState where
  smoothMidi : Option ℝ
  freq : Option ℝ
  vu : ℝ
  vuPeak : ℝ
  vuPeakTimer : ℤ
  history : List ℝ
  waterfall : List (List ℝ)
  lostFrames : ℕ
  pending : List ℕ

/-- The state initialization performed by `startCapture` (lines 612-631)
before the first frame of a new session is analyzed: the previous capture
process is replaced and a fresh empty byte buffer is allocated
(`let buffer = Buffer.alloc(0)`). No analysis field (`smoothMidi`, `freq`,
`vu`, `vuPeak`, `vuPeakTimer`, `history`, `waterfall`, `lostFrames`) is
touched. -/
def startCaptureInit (s : PipelineState) : PipelineState :=
  { s with pending := ([] : List ℕ) }

/-- An all-zero frame of `NFFT` samples. -/
def zeroFrame : List ℝ := List.replicate NFFT 0

/-- A frame of `NFFT` samples all equal to `1/2` (PCM value `-16384/32768`
negated, representable). Its RMS is `1/2`, so its scaled level is `1`. -/
def constHalf : List ℝ := List.replicate NFFT (1 / 2)

/-- A frame of `NFFT` samples that is zero except at indices `0` and `10`,
holding `a` and `b`. Its only nonzero autocorrelation among the band lags of
`calcBands` at 48000 Hz with 2 bands is at lag `10`. -/
def twoSpike (a b : ℝ) : List ℝ :=
  (List.range NFFT).map fun j => if j = 0 then a else if j = 10 then b else 0

/-- A four-sample all-ones buffer used to exercise `detectPitch` at a 1600 Hz
sample rate, where the lag search runs over `1, ..., 40`. -/
def ones4 : List ℝ := [1, 1, 1, 1]

end

/-! Theorems. -/

/-- Appending a value and then applying the history cap leaves that value as
the last history entry: the cap only evicts from the front. -/
theorem getLast?_histCap_concat (h : List ℝ) (a : ℝ) :
    (histCap (h ++ [a])).getLast? = some a := by
  unfold histCap
  split
  · rename_i hlen
    have hne : 1 ≤ h.length := by
      rcases h with _ | ⟨x, xs⟩
      · simp at hlen
      · simp
    rw [List.drop_append_of_le_length hne]
    exact List.getLast?_concat _
  · exact List.getLast?_concat _

/-- C9: reference-pitch updates outside the accepted bound 415 to 465 Hz are
rejected and the previously stored reference pitch is unchanged; updates
inside the bound take effect. -/
theorem C9_reference_pitch_validation (current val : ℚ) :
    ((val < 415 ∨ 465 < val) → saveA4 current val = current) ∧
    (415 ≤ val → val ≤ 465 → saveA4 current val = val) := by
  constructor
  · intro h
    unfold saveA4
    exact if_pos h
  · intro h1 h2
    unfold saveA4
    rw [if_neg]
    push_neg
    exact ⟨h1, h2⟩

/-- Witness for C9: updating a stored reference pitch of 440 Hz with 500 Hz
is rejected, while 442 Hz takes effect. -/
theorem C9_witness : saveA4 440 500 = 440 ∧ saveA4 440 442 = 442 :=
  ⟨(C9_reference_pitch_validation 440 500).1 (Or.inr (by norm_num)),
   (C9_reference_pitch_validation 440 442).2 (by norm_num) (by norm_num)⟩

/-- C1: contrary to the claim, the session-start initialization of
`startCapture` leaves every analysis-state field (smoothed pitch, displayed
frequency, envelope level, peak level, peak-hold countdown, cents history,
band-energy waterfall, consecutive-silence counter) exactly as the previous
session left it; only the frame assembler's pending byte buffer is fresh. -/
theorem C1_session_start_state_leak (s : PipelineState) :
    (startCaptureInit s).smoothMidi = s.smoothMidi ∧
    (startCaptureInit s).freq = s.freq ∧
    (startCaptureInit s).vu = s.vu ∧
    (startCaptureInit s).vuPeak = s.vuPeak ∧
    (startCaptureInit s).vuPeakTimer = s.vuPeakTimer ∧
    (startCaptureInit s).history = s.history ∧
    (startCaptureInit s).waterfall = s.waterfall ∧
    (startCaptureInit s).lostFrames = s.lostFrames ∧
    (startCaptureInit s).pending = [] :=
  ⟨rfl, rfl, rfl, rfl, rfl, rfl, rfl, rfl, rfl⟩

/-- C6: every frame whose RMS is below the silence threshold 0.007 (in
particular every all-zero frame) makes `detectPitch` return `none`, never a
frequency of zero. -/
theorem C6_silence_returns_none (buf : List ℝ) (sampleRate : ℝ)
    (h : rmsOf buf < SILENCE) : detectPitch buf sampleRate = none := by
  unfold detectPitch
  exact if_pos h

/-- Witness for C6: the all-zero frame has RMS `0 < 0.007` and `detectPitch`
returns `none` on it. -/
theorem C6_witness : rmsOf zeroFrame < SILENCE ∧ detectPitch zeroFrame 48000 = none := by
  have h : rmsOf zeroFrame < SILENCE := by
    have hz : ∀ i : ℕ, (List.replicate NFFT (0 : ℝ)).getD i 0 = 0 := by
      intro i
      rw [List.getD_eq_getElem?_getD, List.getElem?_replicate]
      split <;> rfl
    unfold rmsOf zeroFrame SILENCE
    simp [hz]
  exact ⟨h, C6_silence_returns_none zeroFrame 48000 h⟩

/-- Unfolding of the tracker update on a candidate-less frame. -/
theorem trackerStep_none (ref : ℝ) (t : Tracker) :
    trackerStep ref t none =
      ⟨if 5 < t.lostFrames + 1 then none else t.smoothMidi,
       if 5 < t.lostFrames + 1 then none else t.freq,
       histCap (t.history ++ [0]), t.lostFrames + 1⟩ := rfl

/-- Unfolding of the tracker update on an in-range voiced candidate. -/
theorem trackerStep_voiced (ref : ℝ) (t : Tracker) (v : ℝ)
    (h25 : 25 < v) (h2500 : v < 2500) :
    trackerStep ref t (some v) =
      (let m := f2m ref v
       let sm := match t.smoothMidi with
         | none => m
         | some s => 32 / 100 * m + 68 / 100 * s
       ⟨some sm, some (m2f ref sm), histCap (t.history ++ [parseNoteCents sm]), 0⟩) := by
  unfold trackerStep
  simp only
  rw [if_pos ⟨h25, h2500⟩]

/-- C4: a tracker holding a smoothed pitch after voiced frames (silence
counter `0`) keeps the pitch through a single candidate-less frame; the
smoothed pitch is cleared only once the incremented silence counter exceeds
`5`; every candidate-less frame appends a zero to the cents history and
increments the counter; and a voiced in-range frame resets the counter. -/
theorem C4_dropout_hysteresis (ref : ℝ) :
    (∀ (t : Tracker) (sm : ℝ), t.smoothMidi = some sm → t.lostFrames = 0 →
      (trackerStep ref t none).smoothMidi = some sm ∧ (trackerStep ref t none).lostFrames = 1) ∧
    (∀ t : Tracker, ¬ 5 < t.lostFrames + 1 →
      (trackerStep ref t none).smoothMidi = t.smoothMidi) ∧
    (∀ t : Tracker, (trackerStep ref t none).smoothMidi = none →
      t.smoothMidi = none ∨ 5 < t.lostFrames + 1) ∧
    (∀ t : Tracker, (trackerStep ref t none).history.getLast? = some 0 ∧
      (trackerStep ref t none).lostFrames = t.lostFrames + 1) ∧
    (∀ (t : Tracker) (v : ℝ), 25 < v → v < 2500 →
      (trackerStep ref t (some v)).lostFrames = 0) := by
  refine ⟨?_, ?_, ?_, ?_, ?_⟩
  · intro t sm hsm hlf
    rw [trackerStep_none]
    simp only [hlf]
    norm_num
    exact hsm
  · intro t hlt
    rw [trackerStep_none]
    simp only [if_neg hlt]
  · intro t hnone
    rw [trackerStep_none] at hnone
    simp only at hnone
    by_cases hlt : 5 < t.lostFrames + 1
    · exact Or.inr hlt
    · rw [if_neg hlt] at hnone
      exact Or.inl hnone
  · intro t
    rw [trackerStep_none]
    exact ⟨getLast?_histCap_concat _ _, rfl⟩
  · intro t v h25 h2500
    rw [trackerStep_voiced ref t v h25 h2500]

/-- Witness for C4: a tracker at smoothed pitch 69 with silence counter 0
keeps the pitch through one candidate-less frame and its counter becomes 1. -/
theorem C4_witness :
    (trackerStep 440 ⟨some 69, some 440, [], 0⟩ none).smoothMidi = some 69 ∧
    (trackerStep 440 ⟨some 69, some 440, [], 0⟩ none).lostFrames = 1 :=
  (C4_dropout_hysteresis 440).1 ⟨some 69, some 440, [], 0⟩ 69 rfl rfl

/-- Pointwise description of the two-spike frame. -/
theorem twoSpike_getD (a b : ℝ) (j : ℕ) :
    (twoSpike a b).getD j 0 = if j = 0 then a else if j = 10 then b else 0 := by
  unfold twoSpike
  rw [List.getD_eq_getElem?_getD, List.getElem?_map]
  by_cases hj : j < NFFT
  · rw [List.getElem?_range hj]
    rfl
  · rw [List.getElem?_eq_none]
    · have h0 : j ≠ 0 := by unfold NFFT at hj; omega
      have h10 : j ≠ 10 := by unfold NFFT at hj; omega
      simp [h0, h10]
    · simpa using hj

/-- Length of the two-spike frame. -/
theorem twoSpike_length (a b : ℝ) : (twoSpike a b).length = NFFT := by
  simp [twoSpike]

/-- First band frequency for a two-band spectrum: the exponent is `0`, so the
frequency is the low bound `80`. -/
theorem bandFreq_two_zero : bandFreq 2 0 = 80 := by
  unfold bandFreq
  norm_num

/-- Second band frequency for a two-band spectrum: the exponent is `1`, so the
frequency is the high bound `5000`. -/
theorem bandFreq_two_one : bandFreq 2 1 = 5000 := by
  unfold bandFreq
  norm_num

/-- Raw energy of the 80 Hz band (lag 600) of a two-spike frame is zero: no
pair of samples 600 apart is jointly nonzero. -/
theorem rawBand_twoSpike_lo (a b : ℝ) :
    rawBand (twoSpike a b) 48000 (bandFreq 2 0) = 0 := by
  unfold rawBand
  rw [bandFreq_two_zero]
  have h600 : round ((48000 : ℝ) / 80) = 600 := by
    have : (48000 : ℝ) / 80 = ((600 : ℕ) : ℝ) := by norm_num
    rw [this, round_natCast]
    norm_num
  rw [h600, twoSpike_length]
  rw [if_neg (by unfold NFFT; omega)]
  have hz : ∀ j ∈ Finset.range (NFFT - (600 : ℤ).toNat),
      (twoSpike a b).getD j 0 * (twoSpike a b).getD (j + (600 : ℤ).toNat) 0 = 0 := by
    intro j _
    have : (twoSpike a b).getD (j + (600 : ℤ).toNat) 0 = 0 := by
      rw [twoSpike_getD]
      have h0 : j + (600 : ℤ).toNat ≠ 0 := by omega
      have h10 : j + (600 : ℤ).toNat ≠ 10 := by omega
      simp [h0, h10]
    rw [this, mul_zero]
  rw [Finset.sum_eq_zero hz, zero_div]

/-- Raw energy of the 5000 Hz band (lag 10) of a two-spike frame: the only
jointly nonzero sample pair 10 apart is `(0, 10)`, so the unbiased
autocorrelation is `a * b / 1014`. -/
theorem rawBand_twoSpike_hi (a b : ℝ) :
    rawBand (twoSpike a b) 48000 (bandFreq 2 1) = a * b / 1014 := by
  unfold rawBand
  rw [bandFreq_two_one]
  have h10 : round ((48000 : ℝ) / 5000) = 10 := by
    norm_num [round_eq]
  rw [h10, twoSpike_length]
  rw [if_neg (by unfold NFFT; omega)]
  simp only [show ((10 : ℤ).toNat = 10) from rfl]
  have hone : ∑ j in Finset.range (NFFT - 10),
      (twoSpike a b).getD j 0 * (twoSpike a b).getD (j + 10) 0 = a * b := by
    rw [Finset.sum_eq_single_of_mem 0 (by simp [NFFT])]
    · rw [twoSpike_getD, twoSpike_getD]
      norm_num
    · intro j _ hj
      have : (twoSpike a b).getD (j + 10) 0 = 0 := by
        rw [twoSpike_getD]
        have h0 : j + 10 ≠ 0 := by omega
        have h10' : j + 10 ≠ 10 := by omega
        simp [h0, h10']
      rw [this, mul_zero]
  rw [hone]
  norm_num [NFFT]

/-- The raw band vector of a two-spike frame with two bands at 48 kHz. -/
theorem rawBands_twoSpike (a b : ℝ) :
    rawBands (twoSpike a b) 2 48000 = [0, a * b / 1014] := by
  unfold rawBands
  rw [show List.range 2 = [0, 1] from rfl]
  simp only [List.map_cons, List.map_nil]
  rw [rawBand_twoSpike_lo, rawBand_twoSpike_hi]

/-- The normalized band vector of a two-spike frame with two bands at
48 kHz. -/
theorem calcBands_twoSpike (a b : ℝ) :
    calcBands (twoSpike a b) 2 48000 =
      [min 1 (0 / max 0 (max (a * b / 1014) (1 / 100000000))),
       min 1 ((a * b / 1014) / max 0 (max (a * b / 1014) (1 / 100000000)))] := by
  unfold calcBands
  rw [rawBands_twoSpike]
  simp [List.foldr]

/-- The seed of a right fold of `max` bounds the fold from below. -/
theorem le_foldr_max (e : ℝ) (l : List ℝ) : e ≤ l.foldr max e := by
  induction l with
  | nil => exact le_refl e
  | cons x xs ih => exact le_trans ih (le_max_right x _)

/-- Every member of a list bounds its `max` fold from below. -/
theorem mem_le_foldr_max (e : ℝ) (l : List ℝ) : ∀ v ∈ l, v ≤ l.foldr max e := by
  induction l with
  | nil => intro v hv; simp at hv
  | cons x xs ih =>
    intro v hv
    rcases List.mem_cons.mp hv with hvx | hvxs
    · rw [hvx]; exact le_max_left _ _
    · exact le_trans (ih v hvxs) (le_max_right _ _)

/-- When every member is at most the seed, the `max` fold is the seed. -/
theorem foldr_max_eq_of_all_le (e : ℝ) (l : List ℝ) (h : ∀ v ∈ l, v ≤ e) :
    l.foldr max e = e := by
  induction l with
  | nil => rfl
  | cons x xs ih =>
    rw [List.foldr_cons, ih fun v hv => h v (List.mem_cons_of_mem x hv)]
    exact max_eq_right (h x (List.mem_cons_self x xs))

/-- The `max` fold is a member of the list or the seed itself. -/
theorem foldr_max_mem_or (e : ℝ) (l : List ℝ) :
    l.foldr max e ∈ l ∨ l.foldr max e = e := by
  induction l with
  | nil => exact Or.inr rfl
  | cons x xs ih =>
    rw [List.foldr_cons]
    rcases max_choice x (xs.foldr max e) with hx | hf
    · exact Or.inl (by rw [hx]; exact List.mem_cons_self x xs)
    · rw [hf]
      rcases ih with hin | heq
      · exact Or.inl (List.mem_cons_of_mem x hin)
      · exact Or.inr heq

/-- The scaled instantaneous level is nonnegative. -/
theorem vuScaledOf_nonneg (frame : List ℝ) : 0 ≤ vuScaledOf frame := by
  unfold vuScaledOf VU_GAIN
  exact le_min (by norm_num) (mul_nonneg (Real.sqrt_nonneg _) (by norm_num))

/-- The scaled instantaneous level is at most one. -/
theorem vuScaledOf_le_one (frame : List ℝ) : vuScaledOf frame ≤ 1 :=
  min_le_left _ _

/-- One meter step keeps envelope level and peak inside `[0, 1]` when fed an
instantaneous level inside `[0, 1]`. -/
theorem meterStep_bounds (m : Meter) (s : ℝ)
    (h0 : 0 ≤ m.vu) (h1 : m.vu ≤ 1) (hp0 : 0 ≤ m.vuPeak) (hp1 : m.vuPeak ≤ 1)
    (hs0 : 0 ≤ s) (hs1 : s ≤ 1) :
    0 ≤ (meterStep m s).vu ∧ (meterStep m s).vu ≤ 1 ∧
    0 ≤ (meterStep m s).vuPeak ∧ (meterStep m s).vuPeak ≤ 1 := by
  have hvu0 : 0 ≤ if m.vu < s then s else m.vu * (92 / 100) := by
    split
    · exact hs0
    · exact mul_nonneg h0 (by norm_num)
  have hvu1 : (if m.vu < s then s else m.vu * (92 / 100)) ≤ 1 := by
    split
    · exact hs1
    · nlinarith
  unfold meterStep
  dsimp only
  by_cases hpk : m.vuPeak < if m.vu < s then s else m.vu * (92 / 100)
  · rw [if_pos hpk]
    exact ⟨hvu0, hvu1, hvu0, hvu1⟩
  · rw [if_neg hpk]
    refine ⟨hvu0, hvu1, ?_, ?_⟩
    · dsimp only
      split
      · exact mul_nonneg hp0 (by norm_num)
      · exact hp0
    · dsimp only
      split
      · nlinarith
      · exact hp1

/-- Running the meter over any frame sequence from its initial state keeps
level and peak inside `[0, 1]`. -/
theorem meterRun_bounds (frames : List (List ℝ)) :
    ∀ m : Meter, 0 ≤ m.vu → m.vu ≤ 1 → 0 ≤ m.vuPeak → m.vuPeak ≤ 1 →
      0 ≤ (frames.foldl meterFrame m).vu ∧ (frames.foldl meterFrame m).vu ≤ 1 ∧
      0 ≤ (frames.foldl meterFrame m).vuPeak ∧ (frames.foldl meterFrame m).vuPeak ≤ 1 := by
  induction frames with
  | nil => intro m h0 h1 hp0 hp1; exact ⟨h0, h1, hp0, hp1⟩
  | cons f fs ih =>
    intro m h0 h1 hp0 hp1
    rw [List.foldl_cons]
    obtain ⟨a0, a1, b0, b1⟩ :=
      meterStep_bounds m (vuScaledOf f) h0 h1 hp0 hp1 (vuScaledOf_nonneg f) (vuScaledOf_le_one f)
    exact ih (meterFrame m f) a0 a1 b0 b1

/-- C2 amended: every element of the band vector returned by `calcBands` is
at most 1 (it can be negative when raw autocorrelations are negative), and
the level and peak of the level meter always lie in `[0, 1]` starting from
the initial state, for every frame sequence. -/
theorem C2_normalized_bounds :
    (∀ (buf : List ℝ) (count : ℕ) (sampleRate : ℝ),
      ∀ w ∈ calcBands buf count sampleRate, w ≤ 1) ∧
    (∀ frames : List (List ℝ),
      0 ≤ (frames.foldl meterFrame meterInit).vu ∧
      (frames.foldl meterFrame meterInit).vu ≤ 1 ∧
      0 ≤ (frames.foldl meterFrame meterInit).vuPeak ∧
      (frames.foldl meterFrame meterInit).vuPeak ≤ 1) := by
  constructor
  · intro buf count sampleRate w hw
    unfold calcBands at hw
    obtain ⟨v, _, rfl⟩ := List.mem_map.mp hw
    exact min_le_left _ _
  · intro frames
    exact meterRun_bounds frames meterInit (le_refl 0) (by norm_num [meterInit])
      (le_refl 0) (by norm_num [meterInit])

/-- Witness for C2 amended: the first band of a concrete frame evaluates to
`0 ≤ 1` through the theorem, and the empty run leaves the meter at its
bounded initial state. -/
theorem C2_witness :
    (0 : ℝ) ≤ 1 ∧ 0 ≤ (([] : List (List ℝ)).foldl meterFrame meterInit).vu := by
  have hmem : (0 : ℝ) ∈ calcBands (twoSpike (1 / 2) (-(1 / 2))) 2 48000 := by
    rw [calcBands_twoSpike]
    have : min 1 ((0 : ℝ) / max 0 (max (1 / 2 * -(1 / 2) / 1014) (1 / 100000000))) = 0 := by
      rw [zero_div]
      exact min_eq_right (by norm_num)
    rw [this]
    exact List.mem_cons_self _ _
  exact ⟨C2_normalized_bounds.1 (twoSpike (1 / 2) (-(1 / 2))) 2 48000 0 hmem,
         (C2_normalized_bounds.2 []).1⟩

/-- C2 counterexample: on a frame holding `1/2` at index 0 and `-1/2` at
index 10 (a representable PCM frame), the second of two bands at 48 kHz is
negative, refuting the claim that every published band element is at least
zero. -/
theorem C2_counterexample :
    (calcBands (twoSpike (1 / 2) (-(1 / 2))) 2 48000).getD 1 0 < 0 := by
  rw [calcBands_twoSpike]
  have hmx : max (0 : ℝ) (max (1 / 2 * -(1 / 2) / 1014) (1 / 100000000)) = 1 / 100000000 := by
    rw [max_eq_right (by norm_num : (1 / 2 * -(1 / 2) / 1014 : ℝ) ≤ 1 / 100000000)]
    exact max_eq_right (by norm_num)
  rw [hmx]
  have : min (1 : ℝ) ((1 / 2 * -(1 / 2) / 1014) / (1 / 100000000)) =
      (1 / 2 * -(1 / 2) / 1014) / (1 / 100000000) :=
    min_eq_right (by norm_num)
  simp only [List.getD_cons_succ, List.getD_cons_zero]
  rw [this]
  norm_num

/-- C3 amended: whenever some raw band energy reaches the epsilon floor
`1e-8`, the normalized vector attains the value 1 exactly and every element
is at most 1; when every raw energy is below the floor, the vector is the raw
vector divided by `1e-8`, every element is below 1, and an all-zero raw
vector yields an all-zero output. -/
theorem C3_band_normalization (buf : List ℝ) (count : ℕ) (sampleRate : ℝ) :
    ((∃ v ∈ rawBands buf count sampleRate, 1 / 100000000 ≤ v) →
      (1 : ℝ) ∈ calcBands buf count sampleRate ∧
      ∀ w ∈ calcBands buf count sampleRate, w ≤ 1) ∧
    ((∀ v ∈ rawBands buf count sampleRate, v < 1 / 100000000) →
      calcBands buf count sampleRate =
        (rawBands buf count sampleRate).map (fun v => v / (1 / 100000000)) ∧
      ∀ w ∈ calcBands buf count sampleRate, w < 1) ∧
    ((∀ v ∈ rawBands buf count sampleRate, v = 0) →
      calcBands buf count sampleRate = List.replicate count 0) := by
  refine ⟨?_, ?_, ?_⟩
  · rintro ⟨v, hv, hv8⟩
    have hmx8 : (1 : ℝ) / 100000000 ≤ (rawBands buf count sampleRate).foldr max (1 / 100000000) :=
      le_foldr_max _ _
    have hmxpos : (0 : ℝ) < (rawBands buf count sampleRate).foldr max (1 / 100000000) :=
      lt_of_lt_of_le (by norm_num) hmx8
    constructor
    · unfold calcBands
      rcases foldr_max_mem_or (1 / 100000000) (rawBands buf count sampleRate) with hin | heq
      · exact List.mem_map.mpr ⟨_, hin, by rw [div_self (ne_of_gt hmxpos)]; exact min_self 1⟩
      · have hvle : v ≤ (rawBands buf count sampleRate).foldr max (1 / 100000000) :=
          mem_le_foldr_max _ _ v hv
        have hveq : v = (rawBands buf count sampleRate).foldr max (1 / 100000000) :=
          le_antisymm hvle (by rw [heq]; exact hv8)
        exact List.mem_map.mpr ⟨v, hv, by rw [← hveq, div_self (by rw [hveq]; exact ne_of_gt hmxpos)]; exact min_self 1⟩
    · intro w hw
      unfold calcBands at hw
      obtain ⟨u, _, rfl⟩ := List.mem_map.mp hw
      exact min_le_left _ _
  · intro hall
    have hmx : (rawBands buf count sampleRate).foldr max (1 / 100000000) = 1 / 100000000 :=
      foldr_max_eq_of_all_le _ _ fun v hv => le_of_lt (hall v hv)
    have hmap : calcBands buf count sampleRate =
        (rawBands buf count sampleRate).map (fun v => v / (1 / 100000000)) := by
      unfold calcBands
      dsimp only
      rw [hmx]
      exact List.map_congr_left fun v hv =>
        min_eq_right (le_of_lt ((div_lt_one (by norm_num)).mpr (hall v hv)))
    refine ⟨hmap, ?_⟩
    intro w hw
    rw [hmap] at hw
    obtain ⟨u, hu, rfl⟩ := List.mem_map.mp hw
    exact (div_lt_one (by norm_num)).mpr (hall u hu)
  · intro hzero
    rw [List.eq_replicate_iff]
    constructor
    · unfold calcBands rawBands
      simp
    · intro w hw
      unfold calcBands at hw
      obtain ⟨u, hu, rfl⟩ := List.mem_map.mp hw
      rw [hzero u hu, zero_div]
      exact min_eq_right (by norm_num)

/-- Witness for C3 amended: on a frame with `1/2` at indices 0 and 10 the
raw lag-10 energy `1/4056` reaches the floor, and the theorem yields an
element equal to 1 in the normalized vector. -/
theorem C3_witness : (1 : ℝ) ∈ calcBands (twoSpike (1 / 2) (1 / 2)) 2 48000 := by
  have hv : ((1 : ℝ) / 2 * (1 / 2) / 1014) ∈ rawBands (twoSpike (1 / 2) (1 / 2)) 2 48000 := by
    rw [rawBands_twoSpike]
    exact List.mem_cons_of_mem _ (List.mem_cons_self _ _)
  exact ((C3_band_normalization (twoSpike (1 / 2) (1 / 2)) 2 48000).1
    ⟨_, hv, by norm_num⟩).1

/-- C3 counterexample: a representable frame with the smallest nonzero sample
at indices 0 and 10 has a nonzero raw correlation, yet the normalized
two-band vector at 48 kHz has every element strictly below 1 and is not
all-zero, because the raw maximum sits below the `1e-8` epsilon floor. -/
theorem C3_counterexample :
    (∀ w ∈ calcBands (twoSpike (1 / 32768) (1 / 32768)) 2 48000, w < 1) ∧
    (calcBands (twoSpike (1 / 32768) (1 / 32768)) 2 48000).getD 1 0 ≠ 0 ∧
    (rawBands (twoSpike (1 / 32768) (1 / 32768)) 2 48000).getD 1 0 ≠ 0 := by
  have hmx : max (0 : ℝ) (max (1 / 32768 * (1 / 32768) / 1014) (1 / 100000000)) =
      1 / 100000000 := by
    rw [max_eq_right (by norm_num : (1 / 32768 * (1 / 32768) / 1014 : ℝ) ≤ 1 / 100000000)]
    exact max_eq_right (by norm_num)
  refine ⟨?_, ?_, ?_⟩
  · intro w hw
    rw [calcBands_twoSpike, hmx] at hw
    rcases List.mem_cons.mp hw with h1 | h2
    · rw [h1, zero_div]
      norm_num
    · rcases List.mem_cons.mp h2 with h1 | h2
      · rw [h1]
        exact lt_of_le_of_lt (min_le_right _ _) (by norm_num)
      · simp at h2
  · rw [calcBands_twoSpike, hmx]
    simp only [List.getD_cons_succ, List.getD_cons_zero]
    rw [min_eq_right (by norm_num : ((1 : ℝ) / 32768 * (1 / 32768) / 1014) / (1 / 100000000) ≤ 1)]
    norm_num
  · rw [rawBands_twoSpike]
    simp only [List.getD_cons_succ, List.getD_cons_zero]
    norm_num

/-- The envelope update of one meter step: instant attack when the scaled
level exceeds the current level, exponential decay by `0.92` otherwise. -/
theorem meterStep_vu (m : Meter) (s : ℝ) :
    (meterStep m s).vu = if m.vu < s then s else m.vu * (92 / 100) := by
  unfold meterStep
  dsimp only
  split <;> split <;> rfl

/-- The all-zero frame has scaled instantaneous level zero. -/
theorem vuScaledOf_zeroFrame : vuScaledOf zeroFrame = 0 := by
  have hz : ∀ i : ℕ, (List.replicate NFFT (0 : ℝ)).getD i 0 = 0 := by
    intro i
    rw [List.getD_eq_getElem?_getD, List.getElem?_replicate]
    split <;> rfl
  unfold vuScaledOf zeroFrame VU_GAIN
  simp [hz]

/-- The constant `1/2` frame has scaled instantaneous level exactly one:
its RMS is `1/2` and the gain 6 saturates the upper clamp. -/
theorem vuScaledOf_constHalf : vuScaledOf constHalf = 1 := by
  have hterm : ∀ i ∈ Finset.range NFFT,
      (List.replicate NFFT ((1 : ℝ) / 2)).getD i 0 *
        (List.replicate NFFT ((1 : ℝ) / 2)).getD i 0 = 1 / 4 := by
    intro i hi
    rw [List.getD_eq_getElem?_getD, List.getElem?_replicate, if_pos (Finset.mem_range.mp hi)]
    norm_num
  unfold vuScaledOf constHalf VU_GAIN
  rw [Finset.sum_congr rfl hterm, Finset.sum_const, Finset.card_range, nsmul_eq_mul]
  have hsq : ((NFFT : ℝ) * (1 / 4)) / (NFFT : ℝ) = (1 / 2) ^ 2 := by
    norm_num [NFFT]
  rw [hsq, Real.sqrt_sq (by norm_num)]
  norm_num

/-- Strictly increasing instantaneous levels drive the envelope to the level
of the last frame: with each level above the current envelope, every step is
an instant attack. -/
theorem meter_attack (fs : List (List ℝ)) :
    ∀ (m : Meter) (g : List ℝ),
      List.Chain' (fun x y => vuScaledOf x < vuScaledOf y) (fs ++ [g]) →
      (∀ x ∈ (fs ++ [g]).head?, m.vu < vuScaledOf x) →
      ((fs ++ [g]).foldl meterFrame m).vu = vuScaledOf g := by
  induction fs with
  | nil =>
    intro m g _ hh
    simp only [List.nil_append, List.foldl_cons, List.foldl_nil]
    have hm : m.vu < vuScaledOf g := hh g (by simp)
    simp only [meterFrame]
    rw [meterStep_vu, if_pos hm]
  | cons f fs ih =>
    intro m g hchain hh
    simp only [List.cons_append] at hchain ⊢
    rw [List.foldl_cons]
    have hmf : (meterFrame m f).vu = vuScaledOf f := by
      simp only [meterFrame]
      rw [meterStep_vu, if_pos (hh f (by simp))]
    apply ih (meterFrame m f) g (List.chain'_cons'.mp hchain).2
    intro x hx
    rw [hmf]
    exact (List.chain'_cons'.mp hchain).1 x hx

/-- C8 amended: with strictly increasing scaled RMS values each above the
starting level, the envelope equals the scaled RMS of the last frame after
the run (so it never overshoots the instantaneous level and rises
monotonically); running silent (all-zero) frames multiplies the level by
exactly `0.92` per frame, hence strictly decreases it toward zero while it
is positive. -/
theorem C8_level_meter :
    (∀ (fs : List (List ℝ)) (g : List ℝ) (m : Meter),
      List.Chain' (fun x y => vuScaledOf x < vuScaledOf y) (fs ++ [g]) →
      (∀ x ∈ (fs ++ [g]).head?, m.vu < vuScaledOf x) →
      ((fs ++ [g]).foldl meterFrame m).vu = vuScaledOf g) ∧
    (∀ (m : Meter) (k : ℕ), 0 ≤ m.vu →
      ((List.replicate k zeroFrame).foldl meterFrame m).vu = (92 / 100) ^ k * m.vu) ∧
    (∀ m : Meter, 0 < m.vu → (meterFrame m zeroFrame).vu < m.vu) := by
  have hstep : ∀ m : Meter, 0 ≤ m.vu → (meterFrame m zeroFrame).vu = m.vu * (92 / 100) := by
    intro m hm
    simp only [meterFrame]
    rw [meterStep_vu, vuScaledOf_zeroFrame, if_neg (not_lt.mpr hm)]
  refine ⟨fun fs g m => meter_attack fs m g, ?_, ?_⟩
  · intro m k
    induction k generalizing m with
    | zero => intro hm; simp
    | succ k ih =>
      intro hm
      rw [List.replicate_succ, List.foldl_cons]
      rw [ih (meterFrame m zeroFrame) (by rw [hstep m hm]; positivity)]
      rw [hstep m hm]
      ring
  · intro m hm
    rw [hstep m (le_of_lt hm)]
    nlinarith

/-- Witness for C8 amended: one `1/2`-valued frame drives the envelope from
0 to its scaled level 1, and one silent frame decays a level of 1 to
exactly 0.92. -/
theorem C8_witness :
    (([constHalf] : List (List ℝ)).foldl meterFrame meterInit).vu = 1 ∧
    ((List.replicate 1 zeroFrame).foldl meterFrame ⟨1, 1, 45⟩).vu = 92 / 100 := by
  constructor
  · have h := C8_level_meter.1 [] constHalf meterInit
      (by simp)
      (by
        intro x hx
        simp only [List.nil_append, List.head?_cons, Option.mem_def, Option.some.injEq] at hx
        rw [← hx, vuScaledOf_constHalf]
        norm_num [meterInit])
    simpa [vuScaledOf_constHalf] using h
  · have h := C8_level_meter.2.1 ⟨1, 1, 45⟩ 1 (by norm_num)
    rw [h]
    norm_num

/-- C8 counterexample: the scaled RMS sequence of two identical `1/2`-valued
frames is non-decreasing, yet the envelope level strictly decreases on the
second frame (1 to 0.92), refuting the claim that non-decreasing RMS yields
a non-decreasing level. -/
theorem C8_counterexample :
    vuScaledOf constHalf ≤ vuScaledOf constHalf ∧
    (meterFrame (meterFrame meterInit constHalf) constHalf).vu <
      (meterFrame meterInit constHalf).vu := by
  refine ⟨le_refl _, ?_⟩
  have h1 : (meterStep meterInit (vuScaledOf constHalf)).vu = 1 := by
    rw [meterStep_vu, if_pos]
    · exact vuScaledOf_constHalf
    · rw [vuScaledOf_constHalf]
      norm_num [meterInit]
  simp only [meterFrame]
  rw [meterStep_vu, if_neg, h1]
  · norm_num
  · rw [h1, vuScaledOf_constHalf]
    norm_num

/-- C7: whenever `detectPitch` returns a frequency, a best lag was found, and
the result is the parabolic refinement `sampleRate / (best + (y0 - y2) / d)`
with `d = 2 * (2 * y1 - y0 - y2)` exactly when the best lag is strictly
inside the search range and `|d|` exceeds `1e-9` (in which case `d` is
nonzero, so the division is well defined); otherwise the result is the
unrefined `sampleRate / best`. -/
theorem C7_parabolic_refinement (buf : List ℝ) (sampleRate f : ℝ)
    (h : detectPitch buf sampleRate = some f) :
    ∃ best bestV,
      bestSearch buf (minLag sampleRate) (maxLag sampleRate) = some (best, bestV) ∧
      ((minLag sampleRate < best ∧ best < maxLag sampleRate ∧
        1 / 1000000000 <
          |2 * (2 * acSum buf best - acSum buf (best - 1) - acSum buf (best + 1))| ∧
        2 * (2 * acSum buf best - acSum buf (best - 1) - acSum buf (best + 1)) ≠ 0 ∧
        f = sampleRate / ((best : ℝ) +
          (acSum buf (best - 1) - acSum buf (best + 1)) /
            (2 * (2 * acSum buf best - acSum buf (best - 1) - acSum buf (best + 1))))) ∨
       ((¬(minLag sampleRate < best ∧ best < maxLag sampleRate) ∨
         |2 * (2 * acSum buf best - acSum buf (best - 1) - acSum buf (best + 1))| ≤
           1 / 1000000000) ∧
        f = sampleRate / (best : ℝ))) := by
  unfold detectPitch at h
  by_cases hrms : rmsOf buf < SILENCE
  · rw [if_pos hrms] at h
    exact absurd h (by simp)
  · rw [if_neg hrms] at h
    rcases hbs : bestSearch buf (minLag sampleRate) (maxLag sampleRate) with _ | ⟨best, bestV⟩
    · rw [hbs] at h
      simp at h
    · rw [hbs] at h
      simp only at h
      refine ⟨best, bestV, rfl, ?_⟩
      by_cases hweak : bestV < SILENCE * (5 / 100)
      · rw [if_pos hweak] at h
        exact absurd h (by simp)
      · rw [if_neg hweak] at h
        by_cases hrange : minLag sampleRate < best ∧ best < maxLag sampleRate
        · rw [if_pos hrange] at h
          by_cases hd : 1 / 1000000000 <
              |2 * (2 * acSum buf best - acSum buf (best - 1) - acSum buf (best + 1))|
          · rw [if_pos hd] at h
            exact Or.inl ⟨hrange.1, hrange.2, hd,
              abs_pos.mp (lt_trans (by norm_num) hd), (Option.some.inj h).symm⟩
          · rw [if_neg hd] at h
            exact Or.inr ⟨Or.inr (not_lt.mp hd), (Option.some.inj h).symm⟩
        · rw [if_neg hrange] at h
          exact Or.inr ⟨Or.inl hrange, (Option.some.inj h).symm⟩

/-- The autocorrelation of the four-ones buffer vanishes for lags at or
beyond its length, where the summation range is empty. -/
theorem acSum_ones4_ge (lag : ℕ) (h : 4 ≤ lag) : acSum ones4 lag = 0 := by
  unfold acSum ones4
  rw [show ([1, 1, 1, 1] : List ℝ).length = 4 from rfl]
  rw [show 4 - lag = 0 from by omega]
  simp

/-- The autocorrelation of the four-ones buffer never exceeds one. -/
theorem acSum_ones4_le_one (lag : ℕ) : acSum ones4 lag ≤ 1 := by
  by_cases h4 : 4 ≤ lag
  · rw [acSum_ones4_ge lag h4]
    norm_num
  · interval_cases lag <;>
      (unfold acSum ones4; norm_num [Finset.sum_range_succ])

/-- The autocorrelation of the four-ones buffer at lag one is one. -/
theorem acSum_ones4_one : acSum ones4 1 = 1 := by
  unfold acSum ones4
  norm_num [Finset.sum_range_succ]

/-- Once the best-lag search on the four-ones buffer holds `(1, 1)`, later
lags never beat it. -/
theorem bestStep_ones4_keep (l : List ℕ) :
    List.foldl (bestStep ones4) (some (1, 1)) l = some (1, 1) := by
  induction l with
  | nil => rfl
  | cons x xs ih =>
    rw [List.foldl_cons]
    have hx : bestStep ones4 (some (1, 1)) x = some (1, 1) := by
      show (if (1 : ℝ) < acSum ones4 x then some (x, acSum ones4 x)
            else some ((1 : ℕ), (1 : ℝ))) = some (1, 1)
      rw [if_neg (not_lt.mpr (acSum_ones4_le_one x))]
    rw [hx, ih]

/-- The best-lag search on the four-ones buffer over lags 1 to 40 settles on
lag 1 with correlation 1. -/
theorem bestSearch_ones4 : bestSearch ones4 1 40 = some (1, 1) := by
  unfold bestSearch
  rw [show (40 + 1 - 1 : ℕ) = 40 from rfl]
  rw [show List.range' 1 40 = 1 :: List.range' 2 39 from rfl]
  rw [List.foldl_cons]
  rw [show bestStep ones4 none 1 = some (1, acSum ones4 1) from rfl]
  rw [acSum_ones4_one]
  exact bestStep_ones4_keep _

/-- Concrete run of `detectPitch` on the four-ones buffer at a 1600 Hz sample
rate: RMS 1 passes the gate, the best lag is 1 with correlation 1, the lag
sits at the lower end of the range so refinement is skipped, and the result
is `1600 / 1`. -/
theorem detectPitch_ones4 : detectPitch ones4 1600 = some 1600 := by
  have hmin : minLag 1600 = 1 := by
    unfold minLag
    rw [show (1600 : ℝ) / 1600 = 1 from by norm_num, Int.floor_one]
    rfl
  have hmax : maxLag 1600 = 40 := by
    unfold maxLag
    rw [show (1600 : ℝ) / 40 = ((40 : ℕ) : ℝ) from by norm_num, Int.floor_natCast]
    rfl
  have hrms : ¬ rmsOf ones4 < SILENCE := by
    have h1 : rmsOf ones4 = 1 := by
      unfold rmsOf ones4
      norm_num [Finset.sum_range_succ, Real.sqrt_one]
    rw [h1]
    unfold SILENCE
    norm_num
  unfold detectPitch
  rw [if_neg hrms, hmin, hmax, bestSearch_ones4]
  simp only
  rw [if_neg (by unfold SILENCE; norm_num)]
  rw [if_neg (by simp)]
  norm_num

/-- Witness for C7: applying the characterization to the concrete run on the
four-ones buffer at 1600 Hz, whose best lag 1 sits at the lower range end, so
the unrefined `1600 / 1` is returned. -/
theorem C7_witness :
    ∃ best bestV,
      bestSearch ones4 (minLag 1600) (maxLag 1600) = some (best, bestV) ∧
      ((minLag 1600 < best ∧ best < maxLag 1600 ∧
        1 / 1000000000 <
          |2 * (2 * acSum ones4 best - acSum ones4 (best - 1) - acSum ones4 (best + 1))| ∧
        2 * (2 * acSum ones4 best - acSum ones4 (best - 1) - acSum ones4 (best + 1)) ≠ 0 ∧
        (1600 : ℝ) = 1600 / ((best : ℝ) +
          (acSum ones4 (best - 1) - acSum ones4 (best + 1)) /
            (2 * (2 * acSum ones4 best - acSum ones4 (best - 1) - acSum ones4 (best + 1))))) ∨
       ((¬(minLag 1600 < best ∧ best < maxLag 1600) ∨
         |2 * (2 * acSum ones4 best - acSum ones4 (best - 1) - acSum ones4 (best + 1))| ≤
           1 / 1000000000) ∧
        (1600 : ℝ) = 1600 / (best : ℝ))) :=
  C7_parabolic_refinement ones4 1600 1600 detectPitch_ones4

/-- Unfolding of the frame-slicing loop when a full frame is buffered. -/
theorem emitFrames_of_ge (bytes : List ℕ) (h : chunkSize ≤ bytes.length) :
    emitFrames bytes =
      (toFrame (bytes.take chunkSize) :: (emitFrames (bytes.drop chunkSize)).1,
       (emitFrames (bytes.drop chunkSize)).2) := by
  rw [emitFrames]
  rw [dif_pos h]

/-- Unfolding of the frame-slicing loop when fewer than a full frame's bytes
are buffered: nothing is emitted and the buffer is retained. -/
theorem emitFrames_of_lt (bytes : List ℕ) (h : ¬ chunkSize ≤ bytes.length) :
    emitFrames bytes = ([], bytes) := by
  rw [emitFrames]
  rw [dif_neg h]

/-- Closed form of the frame-slicing loop: it emits `length / chunkSize`
frames, the `j`-th taken verbatim from the `j`-th `chunkSize`-byte slice, and
retains exactly the remaining tail. -/
theorem emitFrames_spec : ∀ (n : ℕ) (bytes : List ℕ), bytes.length ≤ n →
    (emitFrames bytes).1.length = bytes.length / chunkSize ∧
    (emitFrames bytes).2 = bytes.drop (chunkSize * (bytes.length / chunkSize)) ∧
    ∀ j < bytes.length / chunkSize,
      (emitFrames bytes).1.getD j [] = toFrame ((bytes.drop (chunkSize * j)).take chunkSize) := by
  intro n
  induction n with
  | zero =>
    intro bytes hn
    have h : ¬ chunkSize ≤ bytes.length := by
      simp only [chunkSize]
      omega
    rw [emitFrames_of_lt bytes h]
    have hdiv : bytes.length / chunkSize = 0 :=
      Nat.div_eq_of_lt (not_le.mp h)
    rw [hdiv]
    refine ⟨rfl, ?_, fun j hj => absurd hj (by omega)⟩
    rw [Nat.mul_zero, List.drop_zero]
  | succ n ih =>
    intro bytes hn
    by_cases h : chunkSize ≤ bytes.length
    · rw [emitFrames_of_ge bytes h]
      have hc : chunkSize = 2048 := rfl
      have hlen : (bytes.drop chunkSize).length ≤ n := by
        rw [List.length_drop]
        simp only [hc] at h ⊢
        omega
      obtain ⟨ih1, ih2, ih3⟩ := ih (bytes.drop chunkSize) hlen
      have hL : (bytes.drop chunkSize).length = bytes.length - chunkSize :=
        List.length_drop _ _
      refine ⟨?_, ?_, ?_⟩
      · simp only [List.length_cons, ih1, hL]
        simp only [hc] at h ⊢
        omega
      · rw [ih2, List.drop_drop]
        congr 1
        rw [hL]
        simp only [hc] at h ⊢
        omega
      · intro j hj
        cases j with
        | zero =>
          simp only [List.getD_cons_zero]
          rw [Nat.mul_zero, List.drop_zero]
        | succ j =>
          simp only [List.getD_cons_succ]
          have hj' : j < (bytes.drop chunkSize).length / chunkSize := by
            rw [hL]
            simp only [hc] at h hj ⊢
            omega
          rw [ih3 j hj', List.drop_drop]
          have hidx : chunkSize + chunkSize * j = chunkSize * (j + 1) := by
            simp only [hc]
            omega
          rw [hidx]
    · rw [emitFrames_of_lt bytes h]
      have hdiv : bytes.length / chunkSize = 0 :=
        Nat.div_eq_of_lt (not_le.mp h)
      rw [hdiv]
      refine ⟨rfl, ?_, fun j hj => absurd hj (by omega)⟩
      rw [Nat.mul_zero, List.drop_zero]

/-- The pending buffer left by the frame-slicing loop always holds fewer than
`chunkSize` bytes. -/
theorem emitFrames_rest_lt (bytes : List ℕ) :
    (emitFrames bytes).2.length < chunkSize := by
  obtain ⟨-, h2, -⟩ := emitFrames_spec bytes.length bytes (le_refl _)
  rw [h2, List.length_drop]
  have hc : chunkSize = 2048 := rfl
  simp only [hc]
  omega

/-- Slicing a concatenation: the loop first emits every full frame of the
first part, then continues on its leftover glued to the second part. -/
theorem emitFrames_append : ∀ (n : ℕ) (a b : List ℕ), a.length ≤ n →
    emitFrames (a ++ b) =
      ((emitFrames a).1 ++ (emitFrames ((emitFrames a).2 ++ b)).1,
       (emitFrames ((emitFrames a).2 ++ b)).2) := by
  intro n
  induction n with
  | zero =>
    intro a b hn
    have h : ¬ chunkSize ≤ a.length := by
      simp only [chunkSize]
      omega
    rw [emitFrames_of_lt a h]
    dsimp only
    rw [List.nil_append]
  | succ n ih =>
    intro a b hn
    by_cases h : chunkSize ≤ a.length
    · have hd : (a ++ b).drop chunkSize = a.drop chunkSize ++ b :=
        List.drop_append_of_le_length h
      have ht : (a ++ b).take chunkSize = a.take chunkSize :=
        List.take_append_of_le_length h
      have hab : chunkSize ≤ (a ++ b).length := by
        rw [List.length_append]
        exact le_trans h (Nat.le_add_right _ _)
      have hlen : (a.drop chunkSize).length ≤ n := by
        rw [List.length_drop]
        have hc : chunkSize = 2048 := rfl
        simp only [hc] at h ⊢
        omega
      rw [emitFrames_of_ge (a ++ b) hab, hd, ht, emitFrames_of_ge a h,
        ih (a.drop chunkSize) b hlen]
      rfl
    · rw [emitFrames_of_lt a h]
      dsimp only
      rw [List.nil_append]

/-- Folding the per-push assembler over a chunk list from any reachable state
is the same as slicing the pending bytes glued to the concatenation of the
chunks. -/
theorem runChunks_foldl : ∀ (chunks : List (List ℕ)) (fs : List (List ℚ)) (r : List ℕ),
    r.length < chunkSize →
    chunks.foldl pushStep (fs, r) =
      (fs ++ (emitFrames (r ++ chunks.flatten)).1, (emitFrames (r ++ chunks.flatten)).2) := by
  intro chunks
  induction chunks with
  | nil =>
    intro fs r hr
    rw [List.foldl_nil, List.flatten_nil, List.append_nil,
      emitFrames_of_lt r (not_le.mpr hr), List.append_nil]
  | cons c cs ih =>
    intro fs r hr
    rw [List.foldl_cons]
    have hstep : pushStep (fs, r) c =
        (fs ++ (emitFrames (r ++ c)).1, (emitFrames (r ++ c)).2) := rfl
    rw [hstep, ih _ _ (emitFrames_rest_lt (r ++ c))]
    rw [List.flatten_cons, ← List.append_assoc,
      emitFrames_append (r ++ c).length (r ++ c) cs.flatten (le_refl _)]
    rw [List.append_assoc]

/-- Running the assembler from the empty state over a chunk list slices the
concatenation of the chunks. -/
theorem runChunks_eq (chunks : List (List ℕ)) :
    runChunks chunks = emitFrames chunks.flatten := by
  unfold runChunks
  rw [runChunks_foldl chunks [] [] (by simp only [List.length_nil, chunkSize]; omega)]
  rw [List.nil_append, List.nil_append]

/-- Reading one sample of an assembled frame: index `i` below `NFFT` yields
the little-endian 16-bit value of bytes `2i, 2i+1` divided by 32768. -/
theorem toFrame_getD (bytes : List ℕ) (i : ℕ) (hi : i < NFFT) :
    (toFrame bytes).getD i 0 =
      (int16LE (bytes.getD (2 * i) 0) (bytes.getD (2 * i + 1) 0) : ℚ) / 32768 := by
  unfold toFrame
  rw [List.getD_eq_getElem?_getD, List.getElem?_map, List.getElem?_range hi]
  rfl

/-- Reading inside a `take` of a `drop` is reading at the shifted index. -/
theorem getD_take_drop (l : List ℕ) (m n p : ℕ) (hp : p < n) :
    ((l.drop m).take n).getD p 0 = l.getD (m + p) 0 := by
  rw [List.getD_eq_getElem?_getD, List.getElem?_take, if_pos hp, List.getElem?_drop,
    ← List.getD_eq_getElem?_getD]

/-- C5: the frames produced by the assembler depend only on the concatenation
of the pushed chunks, and a byte stream totalling `k * chunkSize` bytes
yields exactly `k` frames with nothing pending, where sample `i` of frame `j`
is the little-endian signed 16-bit integer at byte offset
`chunkSize * j + 2 * i` divided by 32768, independent of chunk boundaries. -/
theorem C5_assembler_exactness :
    (∀ chunks chunks' : List (List ℕ), chunks.flatten = chunks'.flatten →
      runChunks chunks = runChunks chunks') ∧
    (∀ (chunks : List (List ℕ)) (k : ℕ), chunks.flatten.length = k * chunkSize →
      (runChunks chunks).1.length = k ∧ (runChunks chunks).2 = [] ∧
      ∀ j i, j < k → i < NFFT →
        ((runChunks chunks).1.getD j []).getD i 0 =
          (int16LE (chunks.flatten.getD (chunkSize * j + 2 * i) 0)
                   (chunks.flatten.getD (chunkSize * j + 2 * i + 1) 0) : ℚ) / 32768) := by
  have hc : chunkSize = 2048 := rfl
  constructor
  · intro chunks chunks' hj
    rw [runChunks_eq, runChunks_eq, hj]
  · intro chunks k hk
    obtain ⟨h1, h2, h3⟩ :=
      emitFrames_spec chunks.flatten.length chunks.flatten (le_refl _)
    have hdiv : chunks.flatten.length / chunkSize = k := by
      rw [hk]
      simp only [hc]
      omega
    refine ⟨?_, ?_, ?_⟩
    · rw [runChunks_eq, h1, hdiv]
    · rw [runChunks_eq, h2]
      apply List.drop_eq_nil_of_le
      rw [hdiv, hk]
      simp only [hc]
      omega
    · intro j i hj hi
      rw [runChunks_eq, h3 j (by rw [hdiv]; exact hj), toFrame_getD _ i hi]
      have e1 : ((chunks.flatten.drop (chunkSize * j)).take chunkSize).getD (2 * i) 0 =
          chunks.flatten.getD (chunkSize * j + 2 * i) 0 :=
        getD_take_drop _ _ _ _ (by simp only [NFFT] at hi; simp only [hc]; omega)
      have e2 : ((chunks.flatten.drop (chunkSize * j)).take chunkSize).getD (2 * i + 1) 0 =
          chunks.flatten.getD (chunkSize * j + (2 * i + 1)) 0 :=
        getD_take_drop _ _ _ _ (by simp only [NFFT] at hi; simp only [hc]; omega)
      rw [e1, e2, ← Nat.add_assoc]

/-- Witness for C5: pushing 2048 zero bytes as a 1-byte chunk followed by a
2047-byte chunk yields exactly one frame and an empty pending buffer. -/
theorem C5_witness :
    (runChunks [List.replicate 1 0, List.replicate 2047 0]).1.length = 1 ∧
    (runChunks [List.replicate 1 0, List.replicate 2047 0]).2 = [] := by
  obtain ⟨h1, h2, -⟩ := C5_assembler_exactness.2 [List.replicate 1 0, List.replicate 2047 0] 1
    (by
      simp only [List.flatten_cons, List.flatten_nil, List.length_append,
        List.length_replicate, List.length_nil, chunkSize])
  exact ⟨h1, h2⟩

/-- C10: after any sequence of pushes, the pending buffer holds strictly
fewer than `chunkSize` bytes, the consumed bytes are exactly
`chunkSize * (number of frames emitted)`, and every emitted frame is built
verbatim from its `chunkSize`-byte slice of the input, so no byte is dropped
or duplicated. -/
theorem C10_assembler_invariant (chunks : List (List ℕ)) :
    (runChunks chunks).2.length < chunkSize ∧
    chunkSize * (runChunks chunks).1.length + (runChunks chunks).2.length =
      chunks.flatten.length ∧
    (runChunks chunks).2 = chunks.flatten.drop (chunkSize * (runChunks chunks).1.length) ∧
    ∀ j < (runChunks chunks).1.length,
      (runChunks chunks).1.getD j [] =
        toFrame ((chunks.flatten.drop (chunkSize * j)).take chunkSize) := by
  have hc : chunkSize = 2048 := rfl
  obtain ⟨h1, h2, h3⟩ :=
    emitFrames_spec chunks.flatten.length chunks.flatten (le_refl _)
  refine ⟨?_, ?_, ?_, ?_⟩
  · rw [runChunks_eq]
    exact emitFrames_rest_lt _
  · rw [runChunks_eq, h1, h2, List.length_drop]
    simp only [hc]
    omega
  · rw [runChunks_eq, h1]
    exact h2
  · intro j hj
    rw [runChunks_eq] at hj ⊢
    rw [h1] at hj
    exact h3 j hj

/-- Witness for C10: a single three-byte push leaves all three bytes pending
and emits no frame. -/
theorem C10_witness :
    (runChunks [[5, 1, 7]]).2.length < chunkSize ∧
    chunkSize * (runChunks [[5, 1, 7]]).1.length + (runChunks [[5, 1, 7]]).2.length = 3 := by
  obtain ⟨h1, h2, -, -⟩ := C10_assembler_invariant [[5, 1, 7]]
  refine ⟨h1, ?_⟩
  rw [h2]
  rfl

end Demod
